import Mathlib

/-!
Shallow embedding of the wordle_search engine (src/lib/wordSearch.js):
the `Trie` (the spec's PatternTree), the `InvertedIndex`, the length index
and the `WordSearchEngine` query pipeline, together with theorems settling
the spec's claims.

Modelling conventions:
* a JS `Map` is an insertion-ordered association list (`List (κ × β)`);
  `Map.get` is `lookupA`, `Map.set` is `setA` (replace in place or append);
* a JS `Set` is an insertion-ordered duplicate-free list; `Set.add` is
  `addSet` (append unless present);
* strings are Lean `String`s; iteration over a word's characters uses
  `String.data`.
-/

namespace WordleSearch

/-- JS `Map.get`: the value of the first binding of the key, if any. -/
def lookupA {α β : Type} [DecidableEq α] (m : List (α × β)) (k : α) : Option β :=
  (m.find? (fun p => decide (p.1 = k))).map Prod.snd

/-- JS `map.get(k)` with a default for a missing key. -/
def lookupD {α β : Type} [DecidableEq α] (m : List (α × β)) (k : α) (d : β) : β :=
  (lookupA m k).getD d

/-- JS `Map.set`: replace the first binding of the key in place, else append. -/
def setA {α β : Type} [DecidableEq α] : List (α × β) → α → β → List (α × β)
  | [], k, v => [(k, v)]
  | (k', v') :: rest, k, v =>
      if k' = k then (k, v) :: rest else (k', v') :: setA rest k v

/-- JS `Set.add`: append the element unless it is already present. -/
def addSet {α : Type} [DecidableEq α] (s : List α) (a : α) : List α :=
  if a ∈ s then s else s ++ [a]

theorem lookupA_nil {α β : Type} [DecidableEq α] (k : α) :
    lookupA ([] : List (α × β)) k = none := rfl

theorem lookupA_cons {α β : Type} [DecidableEq α] (k' : α) (v' : β) (m : List (α × β)) (k : α) :
    lookupA ((k', v') :: m) k = if k' = k then some v' else lookupA m k := by
  by_cases h : k' = k <;> simp [lookupA, List.find?, h]

theorem lookupA_setA {α β : Type} [DecidableEq α] (m : List (α × β)) (k k' : α) (v : β) :
    lookupA (setA m k v) k' = if k' = k then some v else lookupA m k' := by
  induction m with
  | nil =>
      by_cases h : k' = k
      · subst h; simp [setA, lookupA_cons]
      · have h' : ¬(k = k') := fun hh => h hh.symm
        simp [setA, lookupA_cons, lookupA_nil, h, h']
  | cons p rest ih =>
      obtain ⟨k₀, v₀⟩ := p
      by_cases h0 : k₀ = k
      · subst h0
        by_cases h : k' = k₀
        · subst h; simp [setA, lookupA_cons]
        · have h' : ¬(k₀ = k') := fun hh => h hh.symm
          simp [setA, lookupA_cons, h, h']
      · by_cases h : k' = k
        · subst h
          simp [setA, lookupA_cons, h0, ih]
        · simp [setA, lookupA_cons, h0, h, ih]

theorem mem_addSet {α : Type} [DecidableEq α] (s : List α) (a x : α) :
    x ∈ addSet s a ↔ x ∈ s ∨ x = a := by
  by_cases h : a ∈ s
  · simp only [addSet, if_pos h]
    constructor
    · exact Or.inl
    · rintro (hx | rfl)
      · exact hx
      · exact h
  · simp [addSet, if_neg h]

theorem nodup_addSet {α : Type} [DecidableEq α] (s : List α) (a : α) (h : s.Nodup) :
    (addSet s a).Nodup := by
  by_cases ha : a ∈ s
  · simpa [addSet, if_pos ha] using h
  · simp only [addSet, if_neg ha]
    rw [List.nodup_append]
    refine ⟨h, List.nodup_singleton a, ?_⟩
    intro x hx hxa
    rw [List.mem_singleton] at hxa
    subst hxa
    exact ha hx

theorem keys_setA {α β : Type} [DecidableEq α] (m : List (α × β)) (k : α) (v : β) :
    (setA m k v).map Prod.fst =
      if k ∈ m.map Prod.fst then m.map Prod.fst else m.map Prod.fst ++ [k] := by
  induction m with
  | nil => simp [setA]
  | cons p rest ih =>
      obtain ⟨k₀, v₀⟩ := p
      by_cases h0 : k₀ = k
      · subst h0; simp [setA]
      · simp only [setA, if_neg h0, List.map_cons, ih, List.mem_cons]
        by_cases h : k ∈ rest.map Prod.fst
        · rw [if_pos h, if_pos (Or.inr h)]
        · have hnot : ¬(k = k₀ ∨ k ∈ rest.map Prod.fst) := by
            rintro (h' | h')
            · exact h0 h'.symm
            · exact h h'
          rw [if_neg h, if_neg hnot, List.cons_append]

theorem keys_nodup_setA {α β : Type} [DecidableEq α] (m : List (α × β)) (k : α) (v : β)
    (h : (m.map Prod.fst).Nodup) : ((setA m k v).map Prod.fst).Nodup := by
  rw [keys_setA]
  by_cases hk : k ∈ m.map Prod.fst
  · rwa [if_pos hk]
  · rw [if_neg hk, List.nodup_append]
    refine ⟨h, List.nodup_singleton k, ?_⟩
    intro x hx hxk
    rw [List.mem_singleton] at hxk
    subst hxk
    exact hk hx

theorem mem_iff_lookupA {α β : Type} [DecidableEq α] (m : List (α × β))
    (h : (m.map Prod.fst).Nodup) (k : α) (v : β) :
    (k, v) ∈ m ↔ lookupA m k = some v := by
  induction m with
  | nil => simp [lookupA_nil]
  | cons p rest ih =>
      obtain ⟨k₀, v₀⟩ := p
      simp only [List.map_cons, List.nodup_cons] at h
      rw [List.mem_cons, lookupA_cons]
      by_cases hk : k₀ = k
      · subst hk
        rw [if_pos rfl]
        constructor
        · rintro (heq | hmem)
          · rw [Prod.mk.injEq] at heq
            rw [heq.2]
          · exact absurd (List.mem_map.mpr ⟨(k₀, v), hmem, rfl⟩) h.1
        · intro hv
          rw [Option.some.injEq] at hv
          exact Or.inl (by rw [hv])
      · rw [if_neg hk, ← ih h.2]
        constructor
        · rintro (heq | hmem)
          · rw [Prod.mk.injEq] at heq
            exact absurd heq.1.symm hk
          · exact hmem
        · exact Or.inr

/-- First-occurrence deduplication: the contents of a JS `Set` filled by
iterating a list. -/
def dedupF {α : Type} [DecidableEq α] (l : List α) : List α :=
  l.foldl addSet []

theorem mem_foldl_addSet {α : Type} [DecidableEq α] (l acc : List α) (x : α) :
    x ∈ l.foldl addSet acc ↔ x ∈ acc ∨ x ∈ l := by
  induction l generalizing acc with
  | nil => simp
  | cons a l ih => simp [List.foldl_cons, ih, mem_addSet]; tauto

theorem mem_dedupF {α : Type} [DecidableEq α] (l : List α) (x : α) :
    x ∈ dedupF l ↔ x ∈ l := by
  simp [dedupF, mem_foldl_addSet]

theorem nodup_foldl_addSet {α : Type} [DecidableEq α] (l acc : List α) (h : acc.Nodup) :
    (l.foldl addSet acc).Nodup := by
  induction l generalizing acc with
  | nil => simpa
  | cons a l ih => exact ih _ (nodup_addSet _ _ h)

theorem nodup_dedupF {α : Type} [DecidableEq α] (l : List α) : (dedupF l).Nodup :=
  nodup_foldl_addSet l [] List.nodup_nil

/-- `TrieNode` from src/lib/wordSearch.js: a children map, the end-of-word
mark, and the set of words whose insertion path passes through this node. -/
inductive TrieNode : Type where
  | node (children : List (Char × TrieNode)) (isEndOfWord : Bool) (words : List String)

/-- The `children` map of a node. -/
def TrieNode.children : TrieNode → List (Char × TrieNode)
  | .node c _ _ => c

/-- The `isEndOfWord` mark of a node. -/
def TrieNode.isEndOfWord : TrieNode → Bool
  | .node _ e _ => e

/-- The `words` set of a node. -/
def TrieNode.words : TrieNode → List String
  | .node _ _ w => w

/-- `new TrieNode()`. -/
def TrieNode.empty : TrieNode := .node [] false []

namespace Trie

/-- `node.words.add(word)` as the insert loop enters a child node. -/
def addHere (w : String) (ch : TrieNode) : TrieNode :=
  .node ch.children ch.isEndOfWord (addSet ch.words w)

/-- The loop body of `Trie.insert`: walk the remaining characters, creating
children as needed, adding the word to every visited child node's `words`
set, and marking the final node as end-of-word. -/
def insertAux (w : String) : TrieNode → List Char → TrieNode
  | n, [] => .node n.children true n.words
  | n, c :: cs =>
      .node
        (setA n.children c
          (insertAux w (addHere w ((lookupA n.children c).getD TrieNode.empty)) cs))
        n.isEndOfWord n.words

/-- `Trie.insert(word)` from src/lib/wordSearch.js. -/
def insert (t : TrieNode) (w : String) : TrieNode :=
  insertAux w t w.data

end Trie

/-- The node reached from `t` by following a path of characters through the
children maps, if every step has a matching child. -/
def TrieNode.subnode : TrieNode → List Char → Option TrieNode
  | n, [] => some n
  | n, c :: p =>
      match lookupA n.children c with
      | some ch => ch.subnode p
      | none => none

/-- The `words` set at a path, empty when no node is there. -/
def TrieNode.wordsAt (t : TrieNode) (p : List Char) : List String :=
  ((t.subnode p).map TrieNode.words).getD []

/-- The end-of-word mark at a path, false when no node is there. -/
def TrieNode.endAt (t : TrieNode) (p : List Char) : Bool :=
  ((t.subnode p).map TrieNode.isEndOfWord).getD false

/-- The child keys at a path, empty when no node is there. -/
def TrieNode.keysAt (t : TrieNode) (p : List Char) : List Char :=
  ((t.subnode p).map (fun n => n.children.map Prod.fst)).getD []

theorem TrieNode.subnode_nil (t : TrieNode) : t.subnode [] = some t := rfl

theorem TrieNode.children_node (c : List (Char × TrieNode)) (e : Bool) (w : List String) :
    (TrieNode.node c e w).children = c := rfl

theorem TrieNode.isEndOfWord_node (c : List (Char × TrieNode)) (e : Bool) (w : List String) :
    (TrieNode.node c e w).isEndOfWord = e := rfl

theorem TrieNode.words_node (c : List (Char × TrieNode)) (e : Bool) (w : List String) :
    (TrieNode.node c e w).words = w := rfl

theorem TrieNode.wordsAt_nil (t : TrieNode) : t.wordsAt [] = t.words := rfl

theorem TrieNode.endAt_nil (t : TrieNode) : t.endAt [] = t.isEndOfWord := rfl

theorem TrieNode.keysAt_nil (t : TrieNode) : t.keysAt [] = t.children.map Prod.fst := rfl

theorem TrieNode.subnode_empty_cons (c : Char) (q : List Char) :
    TrieNode.empty.subnode (c :: q) = none := rfl

theorem TrieNode.wordsAt_cons (n : TrieNode) (c : Char) (q : List Char) :
    n.wordsAt (c :: q) = ((lookupA n.children c).getD TrieNode.empty).wordsAt q := by
  cases h : lookupA n.children c with
  | some ch => simp [TrieNode.wordsAt, TrieNode.subnode, h]
  | none =>
      simp only [TrieNode.wordsAt, TrieNode.subnode, h, Option.getD_none]
      cases q with
      | nil => rfl
      | cons d q' => rw [TrieNode.subnode_empty_cons]

theorem TrieNode.endAt_cons (n : TrieNode) (c : Char) (q : List Char) :
    n.endAt (c :: q) = ((lookupA n.children c).getD TrieNode.empty).endAt q := by
  cases h : lookupA n.children c with
  | some ch => simp [TrieNode.endAt, TrieNode.subnode, h]
  | none =>
      simp only [TrieNode.endAt, TrieNode.subnode, h, Option.getD_none]
      cases q with
      | nil => rfl
      | cons d q' => rw [TrieNode.subnode_empty_cons]

theorem TrieNode.keysAt_cons (n : TrieNode) (c : Char) (q : List Char) :
    n.keysAt (c :: q) = ((lookupA n.children c).getD TrieNode.empty).keysAt q := by
  cases h : lookupA n.children c with
  | some ch => simp [TrieNode.keysAt, TrieNode.subnode, h]
  | none =>
      simp only [TrieNode.keysAt, TrieNode.subnode, h, Option.getD_none]
      cases q with
      | nil => rfl
      | cons d q' => rw [TrieNode.subnode_empty_cons]

theorem TrieNode.subnode_append (t : TrieNode) (p q : List Char) :
    t.subnode (p ++ q) = (t.subnode p).bind (fun n => n.subnode q) := by
  induction p generalizing t with
  | nil => simp [TrieNode.subnode]
  | cons c p ih =>
      simp only [List.cons_append, TrieNode.subnode]
      cases lookupA t.children c with
      | some ch => simp [ih]
      | none => simp

theorem cons_prefix_cons_iff {a b : Char} {l m : List Char} :
    a :: l <+: b :: m ↔ a = b ∧ l <+: m := by
  constructor
  · rintro ⟨t, ht⟩
    rw [List.cons_append] at ht
    injection ht with h1 h2
    exact ⟨h1, t, h2⟩
  · rintro ⟨rfl, t, ht⟩
    exact ⟨t, by rw [List.cons_append, ht]⟩

theorem prefix_nil_iff {l : List Char} : l <+: ([] : List Char) ↔ l = [] := by
  constructor
  · rintro ⟨t, ht⟩
    exact List.append_eq_nil.mp ht |>.1
  · rintro rfl
    exact ⟨[], rfl⟩

theorem wordsAt_addHere_nil (w : String) (ch : TrieNode) :
    (Trie.addHere w ch).wordsAt [] = addSet ch.words w := by
  simp [Trie.addHere, TrieNode.wordsAt, TrieNode.subnode, TrieNode.words]

theorem wordsAt_addHere_cons (w : String) (ch : TrieNode) (d : Char) (q : List Char) :
    (Trie.addHere w ch).wordsAt (d :: q) = ch.wordsAt (d :: q) := by
  rw [TrieNode.wordsAt_cons, TrieNode.wordsAt_cons]
  simp [Trie.addHere, TrieNode.children]

theorem endAt_addHere (w : String) (ch : TrieNode) (q : List Char) :
    (Trie.addHere w ch).endAt q = ch.endAt q := by
  cases q with
  | nil => simp [Trie.addHere, TrieNode.endAt, TrieNode.subnode, TrieNode.isEndOfWord]
  | cons d q' =>
      rw [TrieNode.endAt_cons, TrieNode.endAt_cons]
      simp [Trie.addHere, TrieNode.children]

theorem keysAt_addHere (w : String) (ch : TrieNode) (q : List Char) :
    (Trie.addHere w ch).keysAt q = ch.keysAt q := by
  cases q with
  | nil => simp [Trie.addHere, TrieNode.keysAt, TrieNode.subnode, TrieNode.children]
  | cons d q' =>
      rw [TrieNode.keysAt_cons, TrieNode.keysAt_cons]
      simp [Trie.addHere, TrieNode.children]

theorem mem_wordsAt_insertAux (w : String) (cs : List Char) (n : TrieNode) (p : List Char)
    (x : String) :
    x ∈ (Trie.insertAux w n cs).wordsAt p ↔
      x ∈ n.wordsAt p ∨ (x = w ∧ p ≠ [] ∧ p <+: cs) := by
  induction cs generalizing n p with
  | nil =>
      cases p with
      | nil =>
          simp [Trie.insertAux, TrieNode.wordsAt, TrieNode.subnode, TrieNode.words]
      | cons c q =>
          rw [Trie.insertAux, TrieNode.wordsAt_cons, TrieNode.wordsAt_cons]
          simp [TrieNode.children, prefix_nil_iff]
  | cons c cs ih =>
      cases p with
      | nil =>
          simp [Trie.insertAux, TrieNode.wordsAt, TrieNode.subnode, TrieNode.words]
      | cons d q =>
          rw [Trie.insertAux, TrieNode.wordsAt_cons]
          rw [TrieNode.children_node, lookupA_setA]
          by_cases hdc : d = c
          · subst hdc
            rw [if_pos rfl, Option.getD_some, ih]
            rw [TrieNode.wordsAt_cons n d q]
            cases q with
            | nil =>
                rw [wordsAt_addHere_nil, TrieNode.wordsAt_nil]
                rw [mem_addSet]
                have h1 : ([d] : List Char) <+: d :: cs := ⟨cs, rfl⟩
                have h2 : (d :: ([] : List Char)) ≠ [] := by simp
                have h3 : ¬(([] : List Char) ≠ []) := by simp
                tauto
            | cons d' q' =>
                rw [wordsAt_addHere_cons]
                have h1 : (d :: d' :: q') <+: (d :: cs) ↔ (d' :: q') <+: cs := by
                  rw [cons_prefix_cons_iff]
                  simp
                rw [h1]
                have h2 : (d' :: q') ≠ ([] : List Char) := by simp
                have h3 : (d :: d' :: q') ≠ ([] : List Char) := by simp
                tauto
          · rw [if_neg hdc, ← TrieNode.wordsAt_cons]
            have h1 : ¬((d :: q) <+: (c :: cs)) := by
              rw [cons_prefix_cons_iff]
              rintro ⟨rfl, -⟩
              exact hdc rfl
            tauto

theorem endAt_insertAux (w : String) (cs : List Char) (n : TrieNode) (p : List Char) :
    (Trie.insertAux w n cs).endAt p = (n.endAt p || decide (p = cs)) := by
  induction cs generalizing n p with
  | nil =>
      cases p with
      | nil => simp [Trie.insertAux, TrieNode.endAt, TrieNode.subnode, TrieNode.isEndOfWord]
      | cons c q =>
          rw [Trie.insertAux, TrieNode.endAt_cons, TrieNode.endAt_cons]
          simp [TrieNode.children]
  | cons c cs ih =>
      cases p with
      | nil =>
          simp [Trie.insertAux, TrieNode.endAt, TrieNode.subnode, TrieNode.isEndOfWord]
      | cons d q =>
          rw [Trie.insertAux, TrieNode.endAt_cons]
          rw [TrieNode.children_node, lookupA_setA]
          by_cases hdc : d = c
          · subst hdc
            rw [if_pos rfl, Option.getD_some, ih, endAt_addHere]
            rw [TrieNode.endAt_cons n d q]
            have hdec : (decide (d :: q = d :: cs)) = decide (q = cs) := by simp
            rw [hdec]
          · rw [if_neg hdc, ← TrieNode.endAt_cons]
            have hdec : (decide (d :: q = c :: cs)) = false := by simp [hdc]
            rw [hdec, Bool.or_false]

theorem TrieNode.wordsAt_empty (p : List Char) : TrieNode.empty.wordsAt p = [] := by
  cases p with
  | nil => rfl
  | cons c q => simp [TrieNode.wordsAt, TrieNode.subnode_empty_cons]

theorem TrieNode.endAt_empty (p : List Char) : TrieNode.empty.endAt p = false := by
  cases p with
  | nil => rfl
  | cons c q => simp [TrieNode.endAt, TrieNode.subnode_empty_cons]

theorem TrieNode.keysAt_empty (p : List Char) : TrieNode.empty.keysAt p = [] := by
  cases p with
  | nil => rfl
  | cons c q => simp [TrieNode.keysAt, TrieNode.subnode_empty_cons]

theorem keysAt_insertAux_nodup (w : String) (cs : List Char) (n : TrieNode)
    (h : ∀ p, (n.keysAt p).Nodup) : ∀ p, ((Trie.insertAux w n cs).keysAt p).Nodup := by
  induction cs generalizing n with
  | nil =>
      intro p
      have heq : (Trie.insertAux w n []).keysAt p = n.keysAt p := by
        cases p with
        | nil => rw [Trie.insertAux, TrieNode.keysAt_nil, TrieNode.keysAt_nil, TrieNode.children_node]
        | cons c q =>
            rw [Trie.insertAux, TrieNode.keysAt_cons, TrieNode.keysAt_cons, TrieNode.children_node]
      rw [heq]
      exact h p
  | cons c cs ih =>
      intro p
      cases p with
      | nil =>
          rw [Trie.insertAux, TrieNode.keysAt_nil, TrieNode.children_node]
          apply keys_nodup_setA
          have := h []
          rwa [TrieNode.keysAt_nil] at this
      | cons d q =>
          rw [Trie.insertAux, TrieNode.keysAt_cons, TrieNode.children_node, lookupA_setA]
          by_cases hdc : d = c
          · subst hdc
            rw [if_pos rfl, Option.getD_some]
            refine ih (Trie.addHere w ((lookupA n.children d).getD TrieNode.empty)) ?_ q
            intro p'
            rw [keysAt_addHere]
            cases hl : lookupA n.children d with
            | some ch =>
                have := h (d :: p')
                rwa [TrieNode.keysAt_cons, hl, Option.getD_some] at this
            | none =>
                rw [Option.getD_none, TrieNode.keysAt_empty]
                exact List.nodup_nil
          · rw [if_neg hdc, ← TrieNode.keysAt_cons]
            exact h (d :: q)

/-- The trie built by the load phase: every vocabulary word inserted into an
initially empty `Trie`. -/
def buildTrie (ws : List String) : TrieNode :=
  ws.foldl Trie.insert TrieNode.empty

theorem mem_wordsAt_foldl (ws : List String) (t : TrieNode) (p : List Char) (x : String) :
    x ∈ (ws.foldl Trie.insert t).wordsAt p ↔
      x ∈ t.wordsAt p ∨ (x ∈ ws ∧ p ≠ [] ∧ p <+: x.data) := by
  induction ws generalizing t with
  | nil => simp
  | cons w ws ih =>
      rw [List.foldl_cons, ih, Trie.insert, mem_wordsAt_insertAux]
      constructor
      · rintro ((hx | ⟨rfl, hp, hpre⟩) | ⟨hws, hp, hpre⟩)
        · exact Or.inl hx
        · exact Or.inr ⟨List.mem_cons_self _ _, hp, hpre⟩
        · exact Or.inr ⟨List.mem_cons_of_mem _ hws, hp, hpre⟩
      · rintro (hx | ⟨hmem, hp, hpre⟩)
        · exact Or.inl (Or.inl hx)
        · rcases List.mem_cons.mp hmem with rfl | hws
          · exact Or.inl (Or.inr ⟨rfl, hp, hpre⟩)
          · exact Or.inr ⟨hws, hp, hpre⟩

theorem endAt_foldl (ws : List String) (t : TrieNode) (p : List Char) :
    (ws.foldl Trie.insert t).endAt p = true ↔
      t.endAt p = true ∨ ∃ v ∈ ws, v.data = p := by
  induction ws generalizing t with
  | nil => simp
  | cons w ws ih =>
      rw [List.foldl_cons, ih, Trie.insert, endAt_insertAux]
      rw [Bool.or_eq_true, decide_eq_true_eq]
      constructor
      · rintro ((h | rfl) | ⟨v, hv, rfl⟩)
        · exact Or.inl h
        · exact Or.inr ⟨w, List.mem_cons_self _ _, rfl⟩
        · exact Or.inr ⟨v, List.mem_cons_of_mem _ hv, rfl⟩
      · rintro (h | ⟨v, hv, rfl⟩)
        · exact Or.inl (Or.inl h)
        · rcases List.mem_cons.mp hv with rfl | hv'
          · exact Or.inl (Or.inr rfl)
          · exact Or.inr ⟨v, hv', rfl⟩

theorem keysAt_foldl_nodup (ws : List String) (t : TrieNode)
    (h : ∀ p, (t.keysAt p).Nodup) : ∀ p, ((ws.foldl Trie.insert t).keysAt p).Nodup := by
  induction ws generalizing t with
  | nil => exact h
  | cons w ws ih =>
      rw [List.foldl_cons]
      exact ih _ (keysAt_insertAux_nodup w w.data t h)

theorem mem_wordsAt_buildTrie (ws : List String) (p : List Char) (x : String) :
    x ∈ (buildTrie ws).wordsAt p ↔ x ∈ ws ∧ p ≠ [] ∧ p <+: x.data := by
  rw [buildTrie, mem_wordsAt_foldl, TrieNode.wordsAt_empty]
  simp

theorem endAt_buildTrie (ws : List String) (p : List Char) :
    (buildTrie ws).endAt p = true ↔ ∃ v ∈ ws, v.data = p := by
  rw [buildTrie, endAt_foldl, TrieNode.endAt_empty]
  simp

theorem keysAt_buildTrie_nodup (ws : List String) (p : List Char) :
    ((buildTrie ws).keysAt p).Nodup := by
  refine keysAt_foldl_nodup ws TrieNode.empty (fun p' => ?_) p
  rw [TrieNode.keysAt_empty]
  exact List.nodup_nil

/-- `Trie.search(prefix)` from src/lib/wordSearch.js: walk the children maps
along the given characters and return the reached node's `words` set as an
array; if some character has no child, return an empty array. -/
def Trie.search (t : TrieNode) (pfx : String) : List String :=
  t.wordsAt pfx.data

/-- A word fits a pattern positionwise: at every position the pattern holds
the wildcard marker or the word's character (the statement-side reading of
the spec's "literals matching W's corresponding characters and wildcards
elsewhere at matching length"). -/
def matchesWild : List Char → List Char → Bool
  | [], [] => true
  | pc :: ps, c :: cs => (pc = '_' || pc = c) && matchesWild ps cs
  | _, _ => false

theorem matchesWild_length (P q : List Char) (h : matchesWild P q = true) :
    P.length = q.length := by
  induction P generalizing q with
  | nil => cases q with
    | nil => rfl
    | cons c cs => simp [matchesWild] at h
  | cons pc ps ih =>
      cases q with
      | nil => simp [matchesWild] at h
      | cons c cs =>
          rw [matchesWild, Bool.and_eq_true] at h
          simp [ih cs h.2]

/-- `Trie._searchByPatternHelper` from src/lib/wordSearch.js, with the
accumulated `currentWord` and the collected results kept as character
lists: at a wildcard, branch into every child; at a literal, follow only
the matching child; a branch contributes its accumulated word when the
pattern is exhausted at an end-of-word node. -/
def Trie.searchByPatternHelper : TrieNode → List Char → List Char → List (List Char)
  | n, [], cur => if n.isEndOfWord then [cur] else []
  | n, c :: rest, cur =>
      if c = '_' then
        (n.children.map (fun pr => Trie.searchByPatternHelper pr.2 rest (cur ++ [pr.1]))).flatten
      else
        match lookupA n.children c with
        | some ch => Trie.searchByPatternHelper ch rest (cur ++ [c])
        | none => []

/-- `Trie.searchByPattern(pattern)` from src/lib/wordSearch.js: run the
helper from the root with an empty accumulator, collecting results into a
set (first-occurrence deduplication), and return them as strings. -/
def Trie.searchByPattern (t : TrieNode) (pattern : String) : List String :=
  dedupF ((Trie.searchByPatternHelper t pattern.data []).map (fun q => String.mk q))

theorem mem_searchByPatternHelper (P : List Char) (n : TrieNode) (cur x : List Char)
    (hwf : ∀ q, (n.keysAt q).Nodup) :
    x ∈ Trie.searchByPatternHelper n P cur ↔
      ∃ q, matchesWild P q = true ∧ x = cur ++ q ∧ n.endAt q = true := by
  induction P generalizing n cur with
  | nil =>
      rw [Trie.searchByPatternHelper]
      cases he : n.isEndOfWord with
      | true =>
          rw [if_pos rfl, List.mem_singleton]
          constructor
          · rintro rfl
            exact ⟨[], rfl, by simp, by rw [TrieNode.endAt_nil, he]⟩
          · rintro ⟨q, hm, rfl, hend⟩
            cases q with
            | nil => simp
            | cons c q' => simp [matchesWild] at hm
      | false =>
          rw [if_neg Bool.false_ne_true]
          simp only [List.not_mem_nil, false_iff]
          rintro ⟨q, hm, rfl, hend⟩
          cases q with
          | nil => rw [TrieNode.endAt_nil, he] at hend; exact Bool.false_ne_true hend
          | cons c q' => simp [matchesWild] at hm
  | cons c rest ih =>
      rw [Trie.searchByPatternHelper]
      by_cases hc : c = '_'
      · rw [if_pos hc]
        subst hc
        rw [List.mem_flatten]
        constructor
        · rintro ⟨l, hl, hx⟩
          obtain ⟨pr, hpr, rfl⟩ := List.mem_map.mp hl
          have hwfch : ∀ q, (pr.2.keysAt q).Nodup := by
            intro q
            have hlook : lookupA n.children pr.1 = some pr.2 := by
              have hnd := hwf []
              rw [TrieNode.keysAt_nil] at hnd
              exact (mem_iff_lookupA n.children hnd pr.1 pr.2).mp (by
                cases pr
                exact hpr)
            have := hwf (pr.1 :: q)
            rwa [TrieNode.keysAt_cons, hlook, Option.getD_some] at this
          obtain ⟨q, hm, rfl, hend⟩ := (ih pr.2 (cur ++ [pr.1]) hwfch).mp hx
          refine ⟨pr.1 :: q, ?_, by simp, ?_⟩
          · rw [matchesWild, Bool.and_eq_true]
            exact ⟨by simp, hm⟩
          · have hlook : lookupA n.children pr.1 = some pr.2 := by
              have hnd := hwf []
              rw [TrieNode.keysAt_nil] at hnd
              exact (mem_iff_lookupA n.children hnd pr.1 pr.2).mp (by
                cases pr
                exact hpr)
            rw [TrieNode.endAt_cons, hlook, Option.getD_some]
            exact hend
        · rintro ⟨q, hm, rfl, hend⟩
          cases q with
          | nil => simp [matchesWild] at hm
          | cons b q' =>
              rw [matchesWild, Bool.and_eq_true] at hm
              rw [TrieNode.endAt_cons] at hend
              cases hlook : lookupA n.children b with
              | none =>
                  rw [hlook, Option.getD_none, TrieNode.endAt_empty] at hend
                  exact absurd hend (by simp)
              | some ch =>
                  rw [hlook, Option.getD_some] at hend
                  have hnd := hwf []
                  rw [TrieNode.keysAt_nil] at hnd
                  have hpr : (b, ch) ∈ n.children := (mem_iff_lookupA n.children hnd b ch).mpr hlook
                  have hwfch : ∀ q, (ch.keysAt q).Nodup := by
                    intro q
                    have := hwf (b :: q)
                    rwa [TrieNode.keysAt_cons, hlook, Option.getD_some] at this
                  refine ⟨Trie.searchByPatternHelper ch rest (cur ++ [b]), List.mem_map.mpr ⟨(b, ch), hpr, rfl⟩, ?_⟩
                  refine (ih ch (cur ++ [b]) hwfch).mpr ⟨q', hm.2, by simp, hend⟩
      · rw [if_neg hc]
        cases hlook : lookupA n.children c with
        | none =>
            simp only [List.not_mem_nil, false_iff]
            rintro ⟨q, hm, rfl, hend⟩
            cases q with
            | nil => simp [matchesWild] at hm
            | cons b q' =>
                rw [matchesWild, Bool.and_eq_true, Bool.or_eq_true] at hm
                have hb : b = c := by
                  rcases hm.1 with h | h
                  · exact absurd (by simpa using h) hc
                  · exact (by simpa using h : c = b).symm
                subst hb
                rw [TrieNode.endAt_cons, hlook, Option.getD_none, TrieNode.endAt_empty] at hend
                exact absurd hend (by simp)
        | some ch =>
            have hwfch : ∀ q, (ch.keysAt q).Nodup := by
              intro q
              have := hwf (c :: q)
              rwa [TrieNode.keysAt_cons, hlook, Option.getD_some] at this
            rw [ih ch (cur ++ [c]) hwfch]
            constructor
            · rintro ⟨q, hm, rfl, hend⟩
              refine ⟨c :: q, ?_, by simp, ?_⟩
              · rw [matchesWild, Bool.and_eq_true, Bool.or_eq_true]
                exact ⟨Or.inr (by simp), hm⟩
              · rw [TrieNode.endAt_cons, hlook, Option.getD_some]
                exact hend
            · rintro ⟨q, hm, rfl, hend⟩
              cases q with
              | nil => simp [matchesWild] at hm
              | cons b q' =>
                  rw [matchesWild, Bool.and_eq_true, Bool.or_eq_true] at hm
                  have hb : b = c := by
                    rcases hm.1 with h | h
                    · exact absurd (by simpa using h) hc
                    · exact (by simpa using h : c = b).symm
                  subst hb
                  rw [TrieNode.endAt_cons, hlook, Option.getD_some] at hend
                  exact ⟨q', hm.2, by simp, hend⟩

theorem String.mk_data (s : String) : String.mk s.data = s := by
  cases s
  rfl

theorem data_string_mk (q : List Char) : (String.mk q).data = q := rfl

theorem mem_searchByPattern_buildTrie (ws : List String) (P : String) (x : String) :
    x ∈ Trie.searchByPattern (buildTrie ws) P ↔
      x ∈ ws ∧ matchesWild P.data x.data = true := by
  rw [Trie.searchByPattern, mem_dedupF, List.mem_map]
  constructor
  · rintro ⟨q, hq, rfl⟩
    obtain ⟨q', hm, heq, hend⟩ :=
      (mem_searchByPatternHelper P.data (buildTrie ws) [] q (keysAt_buildTrie_nodup ws)).mp hq
    rw [List.nil_append] at heq
    subst heq
    obtain ⟨v, hv, hvdata⟩ := (endAt_buildTrie ws _).mp hend
    have hxv : String.mk q = v := by
      rw [← hvdata, String.mk_data]
    rw [hxv]
    refine ⟨hv, ?_⟩
    rw [hvdata]
    exact hm
  · rintro ⟨hx, hm⟩
    refine ⟨x.data, ?_, String.mk_data x⟩
    refine (mem_searchByPatternHelper P.data (buildTrie ws) [] x.data
      (keysAt_buildTrie_nodup ws)).mpr ⟨x.data, hm, by simp, ?_⟩
    exact (endAt_buildTrie ws x.data).mpr ⟨x, hx, rfl⟩

/-- `InvertedIndex` from src/lib/wordSearch.js: `index` maps a character to
the set of words containing it, `positionIndex` maps a character to a map
from word to the set of zero-based positions where the character occurs. -/
structure InvertedIndex where
  index : List (Char × List String)
  positionIndex : List (Char × List (String × List Nat))

/-- `new InvertedIndex()`. -/
def InvertedIndex.emptyIdx : InvertedIndex := ⟨[], []⟩

/-- One iteration of the loop in `InvertedIndex.addWord`, for the pair of a
zero-based position `pr.1` and the character `pr.2` at that position:
register the word in the character's word-set and the position in the
word's position-set for that character. -/
def InvertedIndex.addPair (idx : InvertedIndex) (w : String) (pr : Nat × Char) : InvertedIndex :=
  ⟨setA idx.index pr.2 (addSet (lookupD idx.index pr.2 []) w),
   setA idx.positionIndex pr.2
     (setA (lookupD idx.positionIndex pr.2 [])
       w
       (addSet (lookupD (lookupD idx.positionIndex pr.2 []) w []) pr.1))⟩

/-- The position/character pairs of a word's characters starting at a given
index: the loop counter of `InvertedIndex.addWord`. -/
def enumFrom : Nat → List Char → List (Nat × Char)
  | _, [] => []
  | i, c :: cs => (i, c) :: enumFrom (i + 1) cs

/-- `InvertedIndex.addWord(word)` from src/lib/wordSearch.js. -/
def InvertedIndex.addWord (idx : InvertedIndex) (w : String) : InvertedIndex :=
  (enumFrom 0 w.data).foldl (fun a pr => a.addPair w pr) idx

/-- `InvertedIndex.getWordsWithChar(char)`: the word-set of the character,
or an empty array if the character was never indexed. -/
def InvertedIndex.getWordsWithChar (idx : InvertedIndex) (c : Char) : List String :=
  lookupD idx.index c []

/-- `InvertedIndex.getWordsWithCharAtPosition(char, position)`: the words
whose recorded position-set for the character contains the position. -/
def InvertedIndex.getWordsWithCharAtPosition (idx : InvertedIndex) (c : Char) (pos : Nat) :
    List String :=
  ((lookupD idx.positionIndex c []).filter (fun pr => decide (pos ∈ pr.2))).map Prod.fst

/-- The recorded position-set of a character in a word (empty when absent). -/
def InvertedIndex.positionsOf (idx : InvertedIndex) (c : Char) (w : String) : List Nat :=
  lookupD (lookupD idx.positionIndex c []) w []

theorem mem_enumFrom (l : List Char) (k j : Nat) (c : Char) :
    (j, c) ∈ enumFrom k l ↔ k ≤ j ∧ l[j - k]? = some c := by
  induction l generalizing k with
  | nil => simp [enumFrom]
  | cons d l ih =>
      rw [enumFrom, List.mem_cons, ih]
      constructor
      · rintro (heq | ⟨hle, hget⟩)
        · rw [Prod.mk.injEq] at heq
          obtain ⟨rfl, rfl⟩ := heq
          simp
        · refine ⟨by omega, ?_⟩
          have hjk : j - k = (j - (k + 1)) + 1 := by omega
          rw [hjk, List.getElem?_cons_succ]
          exact hget
      · rintro ⟨hle, hget⟩
        by_cases hjk : j = k
        · subst hjk
          rw [Nat.sub_self, List.getElem?_cons_zero, Option.some.injEq] at hget
          exact Or.inl (by rw [hget])
        · right
          have hjk' : j - k = (j - (k + 1)) + 1 := by omega
          rw [hjk', List.getElem?_cons_succ] at hget
          exact ⟨by omega, hget⟩

theorem exists_mem_enumFrom_zero (l : List Char) (c : Char) :
    (∃ j, (j, c) ∈ enumFrom 0 l) ↔ c ∈ l := by
  constructor
  · rintro ⟨j, hj⟩
    rw [mem_enumFrom, Nat.sub_zero] at hj
    exact List.getElem?_mem hj.2
  · intro hc
    obtain ⟨j, hjl, hj⟩ := List.getElem_of_mem hc
    exact ⟨j, (mem_enumFrom l 0 j c).mpr ⟨Nat.zero_le j, by rw [Nat.sub_zero, List.getElem?_eq_getElem hjl, hj]⟩⟩

theorem mem_getWordsWithChar_addPair (idx : InvertedIndex) (w : String) (i : Nat) (c₀ c : Char)
    (x : String) :
    x ∈ (idx.addPair w (i, c₀)).getWordsWithChar c ↔
      x ∈ idx.getWordsWithChar c ∨ (x = w ∧ c = c₀) := by
  simp only [InvertedIndex.getWordsWithChar, InvertedIndex.addPair, lookupD]
  rw [lookupA_setA]
  by_cases hc : c = c₀
  · subst hc
    rw [if_pos rfl, Option.getD_some, mem_addSet]
    tauto
  · rw [if_neg hc]
    tauto

theorem mem_positionsOf_addPair (idx : InvertedIndex) (w : String) (i : Nat) (c₀ c : Char)
    (y : String) (j : Nat) :
    j ∈ (idx.addPair w (i, c₀)).positionsOf c y ↔
      j ∈ idx.positionsOf c y ∨ (y = w ∧ c = c₀ ∧ j = i) := by
  simp only [InvertedIndex.positionsOf, InvertedIndex.addPair, lookupD]
  rw [lookupA_setA]
  by_cases hc : c = c₀
  · subst hc
    rw [if_pos rfl, Option.getD_some, lookupA_setA]
    by_cases hy : y = w
    · subst hy
      rw [if_pos rfl, Option.getD_some, mem_addSet]
      tauto
    · rw [if_neg hy]
      tauto
  · rw [if_neg hc]
    tauto

theorem mem_getWordsWithChar_foldPairs (pairs : List (Nat × Char)) (idx : InvertedIndex)
    (w : String) (c : Char) (x : String) :
    x ∈ (pairs.foldl (fun a pr => a.addPair w pr) idx).getWordsWithChar c ↔
      x ∈ idx.getWordsWithChar c ∨ (x = w ∧ ∃ j, (j, c) ∈ pairs) := by
  induction pairs generalizing idx with
  | nil => simp
  | cons pr pairs ih =>
      obtain ⟨i, c₀⟩ := pr
      rw [List.foldl_cons, ih, mem_getWordsWithChar_addPair]
      constructor
      · rintro ((hx | ⟨rfl, rfl⟩) | ⟨rfl, j, hj⟩)
        · exact Or.inl hx
        · exact Or.inr ⟨rfl, i, List.mem_cons_self _ _⟩
        · exact Or.inr ⟨rfl, j, List.mem_cons_of_mem _ hj⟩
      · rintro (hx | ⟨rfl, j, hj⟩)
        · exact Or.inl (Or.inl hx)
        · rcases List.mem_cons.mp hj with heq | hj'
          · rw [Prod.mk.injEq] at heq
            exact Or.inl (Or.inr ⟨rfl, heq.2⟩)
          · exact Or.inr ⟨rfl, j, hj'⟩

theorem mem_positionsOf_foldPairs (pairs : List (Nat × Char)) (idx : InvertedIndex)
    (w : String) (c : Char) (y : String) (j : Nat) :
    j ∈ (pairs.foldl (fun a pr => a.addPair w pr) idx).positionsOf c y ↔
      j ∈ idx.positionsOf c y ∨ (y = w ∧ (j, c) ∈ pairs) := by
  induction pairs generalizing idx with
  | nil => simp
  | cons pr pairs ih =>
      obtain ⟨i, c₀⟩ := pr
      rw [List.foldl_cons, ih, mem_positionsOf_addPair]
      constructor
      · rintro ((hx | ⟨rfl, rfl, rfl⟩) | ⟨rfl, hj⟩)
        · exact Or.inl hx
        · exact Or.inr ⟨rfl, List.mem_cons_self _ _⟩
        · exact Or.inr ⟨rfl, List.mem_cons_of_mem _ hj⟩
      · rintro (hx | ⟨rfl, hj⟩)
        · exact Or.inl (Or.inl hx)
        · rcases List.mem_cons.mp hj with heq | hj'
          · rw [Prod.mk.injEq] at heq
            exact Or.inl (Or.inr ⟨rfl, heq.2, heq.1⟩)
          · exact Or.inr ⟨rfl, hj'⟩

theorem mem_getWordsWithChar_addWord (idx : InvertedIndex) (w : String) (c : Char) (x : String) :
    x ∈ (idx.addWord w).getWordsWithChar c ↔
      x ∈ idx.getWordsWithChar c ∨ (x = w ∧ c ∈ w.data) := by
  rw [InvertedIndex.addWord, mem_getWordsWithChar_foldPairs, exists_mem_enumFrom_zero]

theorem mem_positionsOf_addWord (idx : InvertedIndex) (w : String) (c : Char) (y : String)
    (j : Nat) :
    j ∈ (idx.addWord w).positionsOf c y ↔
      j ∈ idx.positionsOf c y ∨ (y = w ∧ w.data[j]? = some c) := by
  rw [InvertedIndex.addWord, mem_positionsOf_foldPairs, mem_enumFrom, Nat.sub_zero]
  have : (0 ≤ j ∧ w.data[j]? = some c) ↔ w.data[j]? = some c := by
    simp
  rw [this]

/-- The inverted index built by the load phase. -/
def buildIdx (ws : List String) : InvertedIndex :=
  ws.foldl InvertedIndex.addWord InvertedIndex.emptyIdx

theorem mem_getWordsWithChar_foldl (ws : List String) (idx : InvertedIndex) (c : Char)
    (x : String) :
    x ∈ (ws.foldl InvertedIndex.addWord idx).getWordsWithChar c ↔
      x ∈ idx.getWordsWithChar c ∨ (x ∈ ws ∧ c ∈ x.data) := by
  induction ws generalizing idx with
  | nil => simp
  | cons w ws ih =>
      rw [List.foldl_cons, ih, mem_getWordsWithChar_addWord]
      constructor
      · rintro ((hx | ⟨rfl, hc⟩) | ⟨hws, hc⟩)
        · exact Or.inl hx
        · exact Or.inr ⟨List.mem_cons_self _ _, hc⟩
        · exact Or.inr ⟨List.mem_cons_of_mem _ hws, hc⟩
      · rintro (hx | ⟨hmem, hc⟩)
        · exact Or.inl (Or.inl hx)
        · rcases List.mem_cons.mp hmem with rfl | hws
          · exact Or.inl (Or.inr ⟨rfl, hc⟩)
          · exact Or.inr ⟨hws, hc⟩

theorem mem_positionsOf_foldl (ws : List String) (idx : InvertedIndex) (c : Char) (y : String)
    (j : Nat) :
    j ∈ (ws.foldl InvertedIndex.addWord idx).positionsOf c y ↔
      j ∈ idx.positionsOf c y ∨ (y ∈ ws ∧ y.data[j]? = some c) := by
  induction ws generalizing idx with
  | nil => simp
  | cons w ws ih =>
      rw [List.foldl_cons, ih, mem_positionsOf_addWord]
      constructor
      · rintro ((hx | ⟨rfl, hc⟩) | ⟨hws, hc⟩)
        · exact Or.inl hx
        · exact Or.inr ⟨List.mem_cons_self _ _, hc⟩
        · exact Or.inr ⟨List.mem_cons_of_mem _ hws, hc⟩
      · rintro (hx | ⟨hmem, hc⟩)
        · exact Or.inl (Or.inl hx)
        · rcases List.mem_cons.mp hmem with rfl | hws
          · exact Or.inl (Or.inr ⟨rfl, hc⟩)
          · exact Or.inr ⟨hws, hc⟩

theorem mem_getWordsWithChar_buildIdx (ws : List String) (c : Char) (x : String) :
    x ∈ (buildIdx ws).getWordsWithChar c ↔ x ∈ ws ∧ c ∈ x.data := by
  rw [buildIdx, mem_getWordsWithChar_foldl]
  simp [InvertedIndex.getWordsWithChar, InvertedIndex.emptyIdx, lookupD, lookupA_nil]

theorem mem_positionsOf_buildIdx (ws : List String) (c : Char) (y : String) (j : Nat) :
    j ∈ (buildIdx ws).positionsOf c y ↔ y ∈ ws ∧ y.data[j]? = some c := by
  rw [buildIdx, mem_positionsOf_foldl]
  simp [InvertedIndex.positionsOf, InvertedIndex.emptyIdx, lookupD, lookupA_nil]

/-- Every per-character word-to-positions map has duplicate-free keys. -/
def InnerKeysNodup (idx : InvertedIndex) : Prop :=
  ∀ c, ((lookupD idx.positionIndex c []).map Prod.fst).Nodup

theorem innerKeysNodup_addPair (idx : InvertedIndex) (w : String) (pr : Nat × Char)
    (h : InnerKeysNodup idx) : InnerKeysNodup (idx.addPair w pr) := by
  intro c
  obtain ⟨i, c₀⟩ := pr
  simp only [InvertedIndex.addPair, lookupD]
  rw [lookupA_setA]
  by_cases hc : c = c₀
  · subst hc
    rw [if_pos rfl, Option.getD_some]
    apply keys_nodup_setA
    exact h c
  · rw [if_neg hc]
    exact h c

theorem innerKeysNodup_foldPairs (pairs : List (Nat × Char)) (idx : InvertedIndex) (w : String)
    (h : InnerKeysNodup idx) :
    InnerKeysNodup (pairs.foldl (fun a pr => a.addPair w pr) idx) := by
  induction pairs generalizing idx with
  | nil => exact h
  | cons pr pairs ih =>
      rw [List.foldl_cons]
      exact ih _ (innerKeysNodup_addPair idx w pr h)

theorem innerKeysNodup_foldlWords (ws : List String) (idx : InvertedIndex)
    (h : InnerKeysNodup idx) : InnerKeysNodup (ws.foldl InvertedIndex.addWord idx) := by
  induction ws generalizing idx with
  | nil => exact h
  | cons w ws ih =>
      rw [List.foldl_cons]
      refine ih _ ?_
      have haw : InnerKeysNodup (idx.addWord w) := by
        rw [InvertedIndex.addWord]
        exact innerKeysNodup_foldPairs (enumFrom 0 w.data) idx w h
      exact haw

theorem innerKeysNodup_buildIdx (ws : List String) : InnerKeysNodup (buildIdx ws) := by
  rw [buildIdx]
  refine innerKeysNodup_foldlWords ws InvertedIndex.emptyIdx ?_
  intro c
  simp [InvertedIndex.emptyIdx, lookupD, lookupA_nil]

theorem mem_getWordsWithCharAtPosition (idx : InvertedIndex) (c : Char) (pos : Nat)
    (x : String) (h : InnerKeysNodup idx) :
    x ∈ idx.getWordsWithCharAtPosition c pos ↔ pos ∈ idx.positionsOf c x := by
  rw [InvertedIndex.getWordsWithCharAtPosition]
  constructor
  · intro hx
    obtain ⟨pr, hpr, heq⟩ := List.mem_map.mp hx
    obtain ⟨hmem, hfil⟩ := List.mem_filter.mp hpr
    obtain ⟨y, ps⟩ := pr
    have heq' : y = x := heq
    subst heq'
    have hlook := (mem_iff_lookupA _ (h c) y ps).mp hmem
    rw [InvertedIndex.positionsOf, lookupD, hlook, Option.getD_some]
    exact of_decide_eq_true hfil
  · intro hpos
    rw [InvertedIndex.positionsOf, lookupD] at hpos
    cases hlook : lookupA (lookupD idx.positionIndex c []) x with
    | none =>
        rw [hlook, Option.getD_none] at hpos
        exact absurd hpos (List.not_mem_nil pos)
    | some ps =>
        rw [hlook, Option.getD_some] at hpos
        have hmem := (mem_iff_lookupA _ (h c) x ps).mpr hlook
        exact List.mem_map.mpr ⟨(x, ps), List.mem_filter.mpr ⟨hmem, decide_eq_true hpos⟩, rfl⟩

/-- The length-index update in `WordSearchEngine.addWord`: put the word in
the bucket of its length, creating the bucket if absent. -/
def addToLengthIndex (m : List (Nat × List String)) (w : String) : List (Nat × List String) :=
  setA m w.length (addSet (lookupD m w.length []) w)

/-- `WordSearchEngine` from src/lib/wordSearch.js: one `Trie`, one
`InvertedIndex`, the vocabulary set `words` and the length index. -/
structure WordSearchEngine where
  trie : TrieNode
  invertedIndex : InvertedIndex
  words : List String
  wordLengthIndex : List (Nat × List String)

/-- `new WordSearchEngine()`. -/
def emptyEngine : WordSearchEngine :=
  ⟨TrieNode.empty, InvertedIndex.emptyIdx, [], []⟩

/-- `WordSearchEngine.addWord(word)`: add the word to the vocabulary set,
the trie, the inverted index and the length index. -/
def WordSearchEngine.addWord (e : WordSearchEngine) (w : String) : WordSearchEngine :=
  ⟨Trie.insert e.trie w,
   e.invertedIndex.addWord w,
   addSet e.words w,
   addToLengthIndex e.wordLengthIndex w⟩

/-- `WordSearchEngine.loadWords(wordsData)`: clear all four structures and
add every word of the given collection in order (the JS source iterates
`Object.keys(wordsData)`; the keys are taken here as a list). -/
def WordSearchEngine.loadWords (ws : List String) : WordSearchEngine :=
  ws.foldl WordSearchEngine.addWord emptyEngine

theorem foldl_addWord_trie (ws : List String) (e : WordSearchEngine) :
    (ws.foldl WordSearchEngine.addWord e).trie = ws.foldl Trie.insert e.trie := by
  induction ws generalizing e with
  | nil => rfl
  | cons w ws ih => rw [List.foldl_cons, List.foldl_cons, ih]; rfl

theorem foldl_addWord_idx (ws : List String) (e : WordSearchEngine) :
    (ws.foldl WordSearchEngine.addWord e).invertedIndex =
      ws.foldl InvertedIndex.addWord e.invertedIndex := by
  induction ws generalizing e with
  | nil => rfl
  | cons w ws ih => rw [List.foldl_cons, List.foldl_cons, ih]; rfl

theorem foldl_addWord_words (ws : List String) (e : WordSearchEngine) :
    (ws.foldl WordSearchEngine.addWord e).words = ws.foldl addSet e.words := by
  induction ws generalizing e with
  | nil => rfl
  | cons w ws ih => rw [List.foldl_cons, List.foldl_cons, ih]; rfl

theorem foldl_addWord_lengths (ws : List String) (e : WordSearchEngine) :
    (ws.foldl WordSearchEngine.addWord e).wordLengthIndex =
      ws.foldl addToLengthIndex e.wordLengthIndex := by
  induction ws generalizing e with
  | nil => rfl
  | cons w ws ih => rw [List.foldl_cons, List.foldl_cons, ih]; rfl

theorem loadWords_trie (ws : List String) :
    (WordSearchEngine.loadWords ws).trie = buildTrie ws :=
  foldl_addWord_trie ws emptyEngine

theorem loadWords_idx (ws : List String) :
    (WordSearchEngine.loadWords ws).invertedIndex = buildIdx ws :=
  foldl_addWord_idx ws emptyEngine

theorem mem_loadWords_words (ws : List String) (x : String) :
    x ∈ (WordSearchEngine.loadWords ws).words ↔ x ∈ ws := by
  rw [WordSearchEngine.loadWords, foldl_addWord_words, mem_foldl_addSet]
  simp [emptyEngine]

theorem nodup_loadWords_words (ws : List String) :
    (WordSearchEngine.loadWords ws).words.Nodup := by
  rw [WordSearchEngine.loadWords, foldl_addWord_words]
  exact nodup_foldl_addSet ws _ List.nodup_nil

theorem mem_addToLengthIndex (m : List (Nat × List String)) (w x : String) (n : Nat) :
    x ∈ lookupD (addToLengthIndex m w) n [] ↔
      x ∈ lookupD m n [] ∨ (x = w ∧ w.length = n) := by
  rw [addToLengthIndex, lookupD, lookupA_setA]
  by_cases hn : n = w.length
  · subst hn
    rw [if_pos rfl, Option.getD_some, mem_addSet, lookupD]
    tauto
  · rw [if_neg hn, lookupD]
    have : ¬(x = w ∧ w.length = n) := by
      rintro ⟨-, rfl⟩
      exact hn rfl
    tauto

theorem mem_lengthIndex_foldl (ws : List String) (m : List (Nat × List String)) (n : Nat)
    (x : String) :
    x ∈ lookupD (ws.foldl addToLengthIndex m) n [] ↔
      x ∈ lookupD m n [] ∨ (x ∈ ws ∧ x.length = n) := by
  induction ws generalizing m with
  | nil => simp
  | cons w ws ih =>
      rw [List.foldl_cons, ih, mem_addToLengthIndex]
      constructor
      · rintro ((hx | ⟨rfl, hl⟩) | ⟨hws, hl⟩)
        · exact Or.inl hx
        · exact Or.inr ⟨List.mem_cons_self _ _, hl⟩
        · exact Or.inr ⟨List.mem_cons_of_mem _ hws, hl⟩
      · rintro (hx | ⟨hmem, hl⟩)
        · exact Or.inl (Or.inl hx)
        · rcases List.mem_cons.mp hmem with rfl | hws
          · exact Or.inl (Or.inr ⟨rfl, hl⟩)
          · exact Or.inr ⟨hws, hl⟩

theorem mem_lengthIndex_loadWords (ws : List String) (n : Nat) (x : String) :
    x ∈ lookupD (WordSearchEngine.loadWords ws).wordLengthIndex n [] ↔
      x ∈ ws ∧ x.length = n := by
  rw [WordSearchEngine.loadWords, foldl_addWord_lengths, mem_lengthIndex_foldl]
  simp [emptyEngine, lookupD, lookupA_nil]

/-- Lexicographic strict comparison of character lists by code point: the
comparison underlying the JS default array sort of strings. -/
def ltList : List Char → List Char → Bool
  | [], [] => false
  | [], _ :: _ => true
  | _ :: _, [] => false
  | c :: cs, d :: ds => if c = d then ltList cs ds else decide (c < d)

/-- String comparison `a ≤ b` as a computable test. -/
def strLeB (a b : String) : Bool :=
  !(ltList b.data a.data)

theorem ltList_iff_lt (xs ys : List Char) : ltList xs ys = true ↔ xs < ys := by
  induction xs generalizing ys with
  | nil =>
      cases ys with
      | nil =>
          rw [ltList]
          constructor
          · intro h
            exact absurd h (by simp)
          · intro h
            cases h
      | cons d ds =>
          rw [ltList]
          exact ⟨fun _ => List.Lex.nil, fun _ => rfl⟩
  | cons c cs ih =>
      cases ys with
      | nil =>
          rw [ltList]
          constructor
          · intro h
            exact absurd h (by simp)
          · intro h
            cases h
      | cons d ds =>
          rw [ltList]
          by_cases hcd : c = d
          · subst hcd
            rw [if_pos rfl, ih]
            constructor
            · intro h
              exact List.Lex.cons h
            · intro h
              cases h with
              | cons h' => exact h'
              | rel h' => exact absurd h' (lt_irrefl c)
          · rw [if_neg hcd, decide_eq_true_eq]
            constructor
            · intro h
              exact List.Lex.rel h
            · intro h
              cases h with
              | cons h' => exact absurd rfl hcd
              | rel h' => exact h'

theorem strLeB_iff_le (a b : String) : strLeB a b = true ↔ a ≤ b := by
  rw [strLeB, Bool.not_eq_true', Bool.eq_false_iff, ne_eq, ltList_iff_lt]
  rw [String.le_iff_toList_le]
  constructor
  · intro h
    exact le_of_not_lt h
  · intro h
    exact fun hlt => (not_le.mpr hlt) h

instance : IsTotal String (fun a b => strLeB a b = true) :=
  ⟨fun a b => by
    rw [strLeB_iff_le, strLeB_iff_le]
    exact le_total a b⟩

instance : IsTrans String (fun a b => strLeB a b = true) :=
  ⟨fun a b c hab hbc => by
    rw [strLeB_iff_le] at hab hbc ⊢
    exact le_trans hab hbc⟩

/-- `Array.prototype.sort()` with no comparator on an array of words:
ascending lexicographic order. -/
def sortWords (l : List String) : List String :=
  List.insertionSort (fun a b => strLeB a b = true) l

theorem sortWords_perm (l : List String) : (sortWords l).Perm l :=
  List.perm_insertionSort _ l

theorem sortWords_sorted (l : List String) : List.Sorted (· ≤ ·) (sortWords l) := by
  have h := List.sorted_insertionSort (fun a b => strLeB a b = true) l
  exact List.Pairwise.imp (fun hab => (strLeB_iff_le _ _).mp hab) h

theorem sortWords_nodup (l : List String) (h : l.Nodup) : (sortWords l).Nodup :=
  (sortWords_perm l).nodup_iff.mpr h

theorem mem_sortWords (l : List String) (x : String) : x ∈ sortWords l ↔ x ∈ l :=
  (sortWords_perm l).mem_iff

/-- `WordSearchEngine.intersectSets(set1, set2)`: the elements of the first
set that lie in the second, in the first set's order. -/
def WordSearchEngine.intersectSets (s1 s2 : List String) : List String :=
  s1.filter (fun w => decide (w ∈ s2))

/-- `WordSearchEngine.searchByEnding(suffix)`: linear scan of the vocabulary
keeping the words for which `word.endsWith(suffix)`. -/
def WordSearchEngine.searchByEnding (e : WordSearchEngine) (sfx : String) : List String :=
  e.words.filter (fun w => decide (sfx.data <:+ w.data))

/-- `WordSearchEngine.searchByRequiredChars(requiredChars)`: an empty set
for an empty character list, else the fold of set intersection over the
per-character word-sets, starting from the first character's word-set. -/
def WordSearchEngine.searchByRequiredChars (e : WordSearchEngine) : List Char → List String
  | [] => []
  | c :: cs =>
      cs.foldl
        (fun common c' =>
          WordSearchEngine.intersectSets common (e.invertedIndex.getWordsWithChar c'))
        (e.invertedIndex.getWordsWithChar c)

/-- The result of `WordSearchEngine.parseQuery(query)`: an optional pattern
(letters and underscores, lower-cased), the bracket-delimited required
characters (lower-cased), and an optional length (the pattern's character
count, overridden by an explicit length phrase when present). -/
structure ParsedQuery where
  pattern : Option String
  requiredChars : List Char
  length : Option Nat

/-- The body of `WordSearchEngine.search(query)` after `parseQuery`:
if a pattern is present (JS truthiness: the empty string counts as absent),
the running set starts from the pattern-search results; if required
characters are present, their intersection set is intersected into a
non-empty running set but replaces an empty one; the same for the length
bucket when a length was derived (JS truthiness: length 0 counts as
absent); the surviving set is returned sorted ascending. -/
def WordSearchEngine.searchParsed (e : WordSearchEngine) (q : ParsedQuery) : List String :=
  let results0 : List String :=
    match q.pattern with
    | some p => if p = "" then [] else Trie.searchByPattern e.trie p
    | none => []
  let results1 : List String :=
    if q.requiredChars.length > 0 then
      if results0.length > 0 then
        WordSearchEngine.intersectSets results0 (e.searchByRequiredChars q.requiredChars)
      else e.searchByRequiredChars q.requiredChars
    else results0
  let results2 : List String :=
    match q.length with
    | some n =>
        if n = 0 then results1
        else if results1.length > 0 then
          WordSearchEngine.intersectSets results1 (lookupD e.wordLengthIndex n [])
        else lookupD e.wordLengthIndex n []
    | none => results1
  sortWords results2

/-- One constraint object passed to `advancedSearch`: the five recognized
`type` tags each carry the fields their branch reads; `other` stands for a
constraint whose `type` is none of the five recognized tags. -/
inductive Constraint : Type where
  | length (value : Nat)
  | starts_with (value : String)
  | ends_with (value : String)
  | contains_at_position (char : Char) (position : Nat)
  | contains (value : Char)
  | other (tag : String)
  deriving DecidableEq

/-- One iteration of the `advancedSearch` loop: intersect the running result
set with the constraint's resolved word-set; a constraint whose type matches
no branch of the if-chain leaves the running set unchanged. -/
def WordSearchEngine.applyConstraint (e : WordSearchEngine) (results : List String) :
    Constraint → List String
  | .length n => WordSearchEngine.intersectSets results (lookupD e.wordLengthIndex n [])
  | .starts_with s => WordSearchEngine.intersectSets results (Trie.search e.trie s)
  | .ends_with s => WordSearchEngine.intersectSets results (e.searchByEnding s)
  | .contains_at_position c pos =>
      WordSearchEngine.intersectSets results (e.invertedIndex.getWordsWithCharAtPosition c pos)
  | .contains c => WordSearchEngine.intersectSets results (e.invertedIndex.getWordsWithChar c)
  | .other _ => results

/-- `WordSearchEngine.advancedSearch(constraints)`: start from the full
vocabulary set, apply every constraint in input order, and return the final
set sorted ascending. -/
def WordSearchEngine.advancedSearch (e : WordSearchEngine) (cs : List Constraint) : List String :=
  sortWords (cs.foldl e.applyConstraint e.words)

/-- Whether one word survives one constraint (the membership test behind
each `intersectSets` call of `applyConstraint`). -/
def WordSearchEngine.constraintKeep (e : WordSearchEngine) (c : Constraint) (w : String) : Bool :=
  match c with
  | .length n => decide (w ∈ lookupD e.wordLengthIndex n [])
  | .starts_with s => decide (w ∈ Trie.search e.trie s)
  | .ends_with s => decide (w ∈ e.searchByEnding s)
  | .contains_at_position c pos => decide (w ∈ e.invertedIndex.getWordsWithCharAtPosition c pos)
  | .contains c => decide (w ∈ e.invertedIndex.getWordsWithChar c)
  | .other _ => true

theorem applyConstraint_eq_filter (e : WordSearchEngine) (results : List String)
    (c : Constraint) :
    e.applyConstraint results c = results.filter (e.constraintKeep c) := by
  cases c with
  | length n => rfl
  | starts_with s => rfl
  | ends_with s => rfl
  | contains_at_position ch pos => rfl
  | contains ch => rfl
  | other t =>
      rw [WordSearchEngine.applyConstraint]
      exact (List.filter_eq_self.mpr (fun a _ => rfl)).symm

theorem foldl_applyConstraint_eq_filter (e : WordSearchEngine) (cs : List Constraint)
    (l : List String) :
    cs.foldl e.applyConstraint l = l.filter (fun w => cs.all (fun c => e.constraintKeep c w)) := by
  induction cs generalizing l with
  | nil =>
      rw [List.foldl_nil]
      exact (List.filter_eq_self.mpr (fun a _ => rfl)).symm
  | cons c cs ih =>
      rw [List.foldl_cons, ih, applyConstraint_eq_filter, List.filter_filter]
      apply List.filter_congr
      intro x _
      rw [List.all_cons, Bool.and_comm]

/-- The spec's scenario vocabulary, loaded into an engine. -/
def scenarioEngine : WordSearchEngine :=
  WordSearchEngine.loadWords ["words", "works", "wants", "about", "world"]

set_option maxRecDepth 40000 in
/-- C1 counterexample: over the scenario vocabulary, the search pipeline on a
query parsed as pattern "w___s" with required character 'a' (and the derived
length 5) does not return the empty sequence: "wants" matches the pattern
"w___s" and contains 'a', so it survives both intersection steps. -/
theorem claim1_counterexample :
    scenarioEngine.searchParsed ⟨some "w___s", ['a'], some 5⟩ ≠ [] := by
  decide

set_option maxRecDepth 40000 in
/-- C1 amended: over the vocabulary {"words","works","wants","about","world"},
search on a query parsed as pattern "w___s" with required character 'a' (and
derived length 5) intersects the pattern results {"words","works","wants"}
with the words containing 'a' {"wants","about"} and then with the 5-letter
bucket, returning ["wants"]; with required character 'o' instead it returns
["words","works"]. -/
theorem claim1_amended :
    scenarioEngine.searchParsed ⟨some "w___s", ['a'], some 5⟩ = ["wants"] ∧
      scenarioEngine.searchParsed ⟨some "w___s", ['o'], some 5⟩ = ["words", "works"] := by
  constructor
  · decide
  · decide

/-- The invariant claimed for every node of the pattern tree, phrased at the
node reached by the path `p`: its reachable-word set equals the union of its
children's reachable-word sets, plus the word ending at the node when the
node is marked end-of-word. -/
def nodeInvAt (t : TrieNode) (p : List Char) : Prop :=
  ∀ n, t.subnode p = some n →
    ∀ w, w ∈ n.words ↔
      (∃ pr ∈ n.children, w ∈ pr.2.words) ∨ (n.isEndOfWord = true ∧ w = String.mk p)

/-- C2 counterexample: after inserting "a", the root's reachable-word set is
empty while its child already holds "a", so the claimed invariant fails at
the root (insert never adds words to the root node's set). -/
theorem claim2_counterexample :
    ¬ nodeInvAt (WordSearchEngine.loadWords ["a"]).trie [] := by
  intro h
  have hroot := h ((WordSearchEngine.loadWords ["a"]).trie) rfl "a"
  have hchild : ∃ pr ∈ ((WordSearchEngine.loadWords ["a"]).trie).children,
      "a" ∈ pr.2.words := by
    refine ⟨('a', TrieNode.node [] true ["a"]), ?_, by decide⟩
    show ('a', TrieNode.node [] true ["a"]) ∈ [('a', TrieNode.node [] true ["a"])]
    exact List.mem_singleton_self _
  have hmem : "a" ∈ ((WordSearchEngine.loadWords ["a"]).trie).words :=
    hroot.mpr (Or.inl hchild)
  have hempty : ((WordSearchEngine.loadWords ["a"]).trie).words = [] := rfl
  rw [hempty] at hmem
  exact absurd hmem (List.not_mem_nil _)

theorem prefix_snoc_or_eq {p : List Char} {w : String} (hw : p <+: w.data) :
    (∃ c, (p ++ [c]) <+: w.data) ∨ w.data = p := by
  obtain ⟨t, ht⟩ := hw
  cases t with
  | nil =>
      right
      rw [← ht, List.append_nil]
  | cons c t' =>
      left
      refine ⟨c, t', ?_⟩
      rw [← ht, List.append_assoc, List.singleton_append]

/-- C2 amended: after any load, the claimed reachable-word-set invariant
holds at every node other than the root: at every non-empty path, a node's
`words` set equals the union of its children's `words` sets plus the word
ending there when the node is marked end-of-word. At the root it fails as
soon as a non-empty word is inserted, because insert never touches the
root's `words` set. -/
theorem claim2_amended (ws : List String) (p : List Char) (hp : p ≠ []) :
    nodeInvAt (WordSearchEngine.loadWords ws).trie p := by
  intro n hn w
  rw [loadWords_trie] at hn
  have hwords : (buildTrie ws).wordsAt p = n.words := by
    rw [TrieNode.wordsAt, hn]; rfl
  have hend : (buildTrie ws).endAt p = n.isEndOfWord := by
    rw [TrieNode.endAt, hn]; rfl
  have hkeys : (buildTrie ws).keysAt p = n.children.map Prod.fst := by
    rw [TrieNode.keysAt, hn]; rfl
  have hnd : (n.children.map Prod.fst).Nodup := by
    rw [← hkeys]
    exact keysAt_buildTrie_nodup ws p
  have hchildren : ∀ w', (∃ pr ∈ n.children, w' ∈ pr.2.words) ↔
      ∃ c, w' ∈ (buildTrie ws).wordsAt (p ++ [c]) := by
    intro w'
    constructor
    · rintro ⟨pr, hpr, hw'⟩
      refine ⟨pr.1, ?_⟩
      have hlook : lookupA n.children pr.1 = some pr.2 := by
        refine (mem_iff_lookupA n.children hnd pr.1 pr.2).mp ?_
        cases pr
        exact hpr
      have hsub : (buildTrie ws).subnode (p ++ [pr.1]) = some pr.2 := by
        rw [TrieNode.subnode_append, hn]
        show TrieNode.subnode n [pr.1] = some pr.2
        rw [TrieNode.subnode, hlook]; rfl
      rw [TrieNode.wordsAt, hsub]
      exact hw'
    · rintro ⟨c, hw'⟩
      cases hsub : (buildTrie ws).subnode (p ++ [c]) with
      | none =>
          rw [TrieNode.wordsAt, hsub] at hw'
          exact absurd hw' (List.not_mem_nil w')
      | some ch =>
          rw [TrieNode.wordsAt, hsub] at hw'
          have hw'' : w' ∈ ch.words := hw'
          have hlook : lookupA n.children c = some ch := by
            rw [TrieNode.subnode_append, hn] at hsub
            have hsub' : TrieNode.subnode n [c] = some ch := hsub
            rw [TrieNode.subnode] at hsub'
            cases hl : lookupA n.children c with
            | none =>
                rw [hl] at hsub'
                exact absurd hsub' (by simp)
            | some ch' =>
                rw [hl] at hsub'
                have h3 : some ch' = some ch := hsub'
                exact h3
          exact ⟨(c, ch), (mem_iff_lookupA n.children hnd c ch).mpr hlook, hw''⟩
  rw [← hwords, ← hend, mem_wordsAt_buildTrie]
  constructor
  · rintro ⟨hwws, -, hpre⟩
    rcases prefix_snoc_or_eq hpre with ⟨c, hpre'⟩ | heq
    · refine Or.inl ((hchildren w).mpr ⟨c, ?_⟩)
      rw [mem_wordsAt_buildTrie]
      exact ⟨hwws, by simp, hpre'⟩
    · refine Or.inr ⟨(endAt_buildTrie ws p).mpr ⟨w, hwws, heq⟩, ?_⟩
      rw [← heq]
  · rintro (hch | ⟨hendw, rfl⟩)
    · obtain ⟨c, hw'⟩ := (hchildren w).mp hch
      rw [mem_wordsAt_buildTrie] at hw'
      refine ⟨hw'.1, hp, ?_⟩
      exact List.IsPrefix.trans ⟨[c], rfl⟩ hw'.2.2
    · rw [endAt_buildTrie] at hendw
      obtain ⟨v, hv, hvdata⟩ := hendw
      have hveq : v = String.mk p := by
        rw [← hvdata, String.mk_data]
      rw [← hveq]
      refine ⟨hv, hp, ?_⟩
      rw [hvdata]

/-- C2 amended, witness at a concrete input. -/
theorem claim2_amended_witness :
    nodeInvAt (WordSearchEngine.loadWords ["a"]).trie ['a'] :=
  claim2_amended ["a"] ['a'] (by decide)

/-- C3: for every word W inserted at load and every pattern P of the same
length as W in which each position is either the wildcard or W's character
at that position, patternSearch(P) includes W. -/
theorem claim3_patternSearch_complete (ws : List String) (W P : String)
    (hW : W ∈ ws) (hm : matchesWild P.data W.data = true) :
    W ∈ Trie.searchByPattern (WordSearchEngine.loadWords ws).trie P := by
  rw [loadWords_trie, mem_searchByPattern_buildTrie]
  exact ⟨hW, hm⟩

/-- C3, witness at a concrete input. -/
theorem claim3_witness :
    "ab" ∈ Trie.searchByPattern (WordSearchEngine.loadWords ["ab"]).trie "_b" :=
  claim3_patternSearch_complete ["ab"] "ab" "_b" (by decide) (by decide)

/-- C4: every word returned by patternSearch(P) has exactly the length of P
and is one of the loaded words. -/
theorem claim4_patternSearch_sound (ws : List String) (P w : String)
    (hw : w ∈ Trie.searchByPattern (WordSearchEngine.loadWords ws).trie P) :
    w.length = P.length ∧ w ∈ ws := by
  rw [loadWords_trie, mem_searchByPattern_buildTrie] at hw
  refine ⟨?_, hw.1⟩
  show w.data.length = P.data.length
  exact (matchesWild_length P.data w.data hw.2).symm

/-- C4, witness at a concrete input. -/
theorem claim4_witness :
    ("ab" : String).length = ("a_" : String).length ∧ "ab" ∈ ["ab"] :=
  claim4_patternSearch_sound ["ab"] "a_" "ab" (by decide)

/-- Whether a constraint's type is none of the five recognized tags. -/
def isOtherC : Constraint → Bool
  | .other _ => true
  | _ => false

theorem constraintKeep_of_isOther (e : WordSearchEngine) (c : Constraint) (w : String)
    (h : isOtherC c = true) : e.constraintKeep c w = true := by
  cases c with
  | other t => rfl
  | length n => simp [isOtherC] at h
  | starts_with s => simp [isOtherC] at h
  | ends_with s => simp [isOtherC] at h
  | contains_at_position ch pos => simp [isOtherC] at h
  | contains ch => simp [isOtherC] at h

/-- C5: advancedSearch treats every constraint whose type is unrecognized as
a no-op, so on an empty constraint list or a list of only unrecognized-type
constraints it returns the entire vocabulary, sorted ascending, with no
duplicates. -/
theorem claim5_unrecognized_noop (ws : List String) (cs : List Constraint)
    (h : cs.all isOtherC = true) :
    (WordSearchEngine.loadWords ws).advancedSearch cs =
        (WordSearchEngine.loadWords ws).advancedSearch [] ∧
      List.Sorted (· ≤ ·) ((WordSearchEngine.loadWords ws).advancedSearch cs) ∧
      ((WordSearchEngine.loadWords ws).advancedSearch cs).Nodup ∧
      (∀ w, w ∈ (WordSearchEngine.loadWords ws).advancedSearch cs ↔ w ∈ ws) := by
  have hfold : cs.foldl (WordSearchEngine.loadWords ws).applyConstraint
      (WordSearchEngine.loadWords ws).words = (WordSearchEngine.loadWords ws).words := by
    rw [foldl_applyConstraint_eq_filter]
    apply List.filter_eq_self.mpr
    intro a _
    rw [List.all_eq_true]
    intro c hc
    exact constraintKeep_of_isOther _ c a (List.all_eq_true.mp h c hc)
  have hsearch : (WordSearchEngine.loadWords ws).advancedSearch cs =
      sortWords (WordSearchEngine.loadWords ws).words := by
    rw [WordSearchEngine.advancedSearch, hfold]
  have hnil : (WordSearchEngine.loadWords ws).advancedSearch [] =
      sortWords (WordSearchEngine.loadWords ws).words := by
    rw [WordSearchEngine.advancedSearch, List.foldl_nil]
  refine ⟨by rw [hsearch, hnil], ?_, ?_, ?_⟩
  · rw [hsearch]
    exact sortWords_sorted _
  · rw [hsearch]
    exact sortWords_nodup _ (nodup_loadWords_words ws)
  · intro w
    rw [hsearch, mem_sortWords]
    exact mem_loadWords_words ws w

/-- C5, witness at a concrete input. -/
theorem claim5_witness :
    (WordSearchEngine.loadWords ["b", "a"]).advancedSearch [Constraint.other "fuzzy"] =
        (WordSearchEngine.loadWords ["b", "a"]).advancedSearch [] ∧
      List.Sorted (· ≤ ·)
        ((WordSearchEngine.loadWords ["b", "a"]).advancedSearch [Constraint.other "fuzzy"]) ∧
      ((WordSearchEngine.loadWords ["b", "a"]).advancedSearch [Constraint.other "fuzzy"]).Nodup ∧
      (∀ w, w ∈ (WordSearchEngine.loadWords ["b", "a"]).advancedSearch
          [Constraint.other "fuzzy"] ↔ w ∈ ["b", "a"]) :=
  claim5_unrecognized_noop ["b", "a"] [Constraint.other "fuzzy"] (by decide)

/-- C6: for every engine state and every constraint list, advancedSearch on
any permutation of that list returns the same result sequence. -/
theorem claim6_perm_invariant (e : WordSearchEngine) (cs₁ cs₂ : List Constraint)
    (h : cs₁.Perm cs₂) : e.advancedSearch cs₁ = e.advancedSearch cs₂ := by
  rw [WordSearchEngine.advancedSearch, WordSearchEngine.advancedSearch,
    foldl_applyConstraint_eq_filter, foldl_applyConstraint_eq_filter]
  congr 1
  apply List.filter_congr
  intro x _
  have hiff : cs₁.all (fun c => e.constraintKeep c x) = true ↔
      cs₂.all (fun c => e.constraintKeep c x) = true := by
    rw [List.all_eq_true, List.all_eq_true]
    exact ⟨fun ha c hc => ha c (h.mem_iff.mpr hc), fun ha c hc => ha c (h.mem_iff.mp hc)⟩
  cases h1 : cs₁.all (fun c => e.constraintKeep c x) with
  | true => exact (hiff.mp h1).symm
  | false =>
      cases h2 : cs₂.all (fun c => e.constraintKeep c x) with
      | true => exact absurd (h1 ▸ hiff.mpr h2) Bool.false_ne_true
      | false => rfl

/-- C6, witness at a concrete input. -/
theorem claim6_witness :
    scenarioEngine.advancedSearch [Constraint.length 5, Constraint.contains 'o'] =
      scenarioEngine.advancedSearch [Constraint.contains 'o', Constraint.length 5] :=
  claim6_perm_invariant scenarioEngine
    [Constraint.length 5, Constraint.contains 'o']
    [Constraint.contains 'o', Constraint.length 5]
    (List.Perm.swap _ _ _)

/-- C7 counterexample: loading performs no case normalization; the input
word "WORLD" is stored verbatim as "WORLD", not as "world". -/
theorem claim7_counterexample :
    "WORLD" ∈ (WordSearchEngine.loadWords ["WORLD"]).words ∧
      "world" ∉ (WordSearchEngine.loadWords ["WORLD"]).words := by
  constructor
  · decide
  · decide

/-- C7 amended: after load, the Vocabulary holds exactly the input words,
stored verbatim: no case normalization happens, so an input word "WORLD" is
stored as "WORLD". -/
theorem claim7_amended (ws : List String) (w : String) :
    w ∈ (WordSearchEngine.loadWords ws).words ↔ w ∈ ws :=
  mem_loadWords_words ws w

/-- C8: after any sequence of addWord calls on the InvertedIndex, a word is
in a character's word-set iff that word's recorded position-set for that
character is non-empty. -/
theorem claim8_index_invariant (ws : List String) (c : Char) (w : String) :
    w ∈ (buildIdx ws).getWordsWithChar c ↔ (buildIdx ws).positionsOf c w ≠ [] := by
  rw [mem_getWordsWithChar_buildIdx]
  constructor
  · rintro ⟨hw, hc⟩
    obtain ⟨j, hjl, hj⟩ := List.getElem_of_mem hc
    intro hnil
    have hjmem : j ∈ (buildIdx ws).positionsOf c w :=
      (mem_positionsOf_buildIdx ws c w j).mpr ⟨hw, by rw [List.getElem?_eq_getElem hjl, hj]⟩
    rw [hnil] at hjmem
    exact absurd hjmem (List.not_mem_nil j)
  · intro hne
    obtain ⟨j, hj⟩ := List.exists_mem_of_ne_nil _ hne
    have hj' := (mem_positionsOf_buildIdx ws c w j).mp hj
    exact ⟨hj'.1, List.getElem?_mem hj'.2⟩

/-- C9: no core lookup fails: a prefix with no matching path, an unmatched
pattern, an unindexed character (for both containment lookups) and an
unloaded length each resolve to an empty sequence. -/
theorem claim9_no_failure (ws : List String) (pfx P : String) (c : Char) (n pos : Nat)
    (h1 : ∀ w ∈ ws, ¬ (pfx.data <+: w.data))
    (h2 : ∀ w ∈ ws, matchesWild P.data w.data = false)
    (h3 : ∀ w ∈ ws, c ∉ w.data)
    (h4 : ∀ w ∈ ws, w.length ≠ n) :
    Trie.search (WordSearchEngine.loadWords ws).trie pfx = [] ∧
      Trie.searchByPattern (WordSearchEngine.loadWords ws).trie P = [] ∧
      (WordSearchEngine.loadWords ws).invertedIndex.getWordsWithChar c = [] ∧
      (WordSearchEngine.loadWords ws).invertedIndex.getWordsWithCharAtPosition c pos = [] ∧
      lookupD (WordSearchEngine.loadWords ws).wordLengthIndex n [] = [] := by
  refine ⟨?_, ?_, ?_, ?_, ?_⟩
  · rw [Trie.search, loadWords_trie]
    apply List.eq_nil_iff_forall_not_mem.mpr
    intro w hw
    rw [mem_wordsAt_buildTrie] at hw
    exact h1 w hw.1 hw.2.2
  · rw [loadWords_trie]
    apply List.eq_nil_iff_forall_not_mem.mpr
    intro w hw
    rw [mem_searchByPattern_buildTrie] at hw
    obtain ⟨hmem, hmatch⟩ := hw
    have hfalse := h2 w hmem
    rw [hmatch] at hfalse
    exact Bool.noConfusion hfalse
  · rw [loadWords_idx]
    apply List.eq_nil_iff_forall_not_mem.mpr
    intro w hw
    rw [mem_getWordsWithChar_buildIdx] at hw
    exact h3 w hw.1 hw.2
  · rw [loadWords_idx]
    apply List.eq_nil_iff_forall_not_mem.mpr
    intro w hw
    rw [mem_getWordsWithCharAtPosition _ _ _ _ (innerKeysNodup_buildIdx ws)] at hw
    have hw' := (mem_positionsOf_buildIdx ws c w pos).mp hw
    exact h3 w hw'.1 (List.getElem?_mem hw'.2)
  · apply List.eq_nil_iff_forall_not_mem.mpr
    intro w hw
    rw [mem_lengthIndex_loadWords] at hw
    exact h4 w hw.1 hw.2

/-- C9, witness at a concrete input. -/
theorem claim9_witness :
    Trie.search (WordSearchEngine.loadWords ["about"]).trie "z" = [] ∧
      Trie.searchByPattern (WordSearchEngine.loadWords ["about"]).trie "zz" = [] ∧
      (WordSearchEngine.loadWords ["about"]).invertedIndex.getWordsWithChar 'z' = [] ∧
      (WordSearchEngine.loadWords ["about"]).invertedIndex.getWordsWithCharAtPosition 'z' 0
        = [] ∧
      lookupD (WordSearchEngine.loadWords ["about"]).wordLengthIndex 3 [] = [] :=
  claim9_no_failure ["about"] "z" "zz" 'z' 3 0 (by decide) (by decide) (by decide) (by decide)

/-- C10: for every non-empty loaded vocabulary, prefixSearch with the empty
prefix returns the empty sequence (the root's word set is never populated),
so an advancedSearch starts_with constraint with the empty string returns
the empty sequence rather than the whole vocabulary — even though
advancedSearch with no constraints returns a non-empty sequence. -/
theorem claim10_root_unreachable (ws : List String) (h : ws ≠ []) :
    Trie.search (WordSearchEngine.loadWords ws).trie "" = [] ∧
      (WordSearchEngine.loadWords ws).advancedSearch [Constraint.starts_with ""] = [] ∧
      (WordSearchEngine.loadWords ws).advancedSearch [] ≠ [] := by
  have hroot : Trie.search (WordSearchEngine.loadWords ws).trie "" = [] := by
    rw [Trie.search, loadWords_trie]
    apply List.eq_nil_iff_forall_not_mem.mpr
    intro w hw
    rw [mem_wordsAt_buildTrie] at hw
    exact hw.2.1 rfl
  refine ⟨hroot, ?_, ?_⟩
  · rw [WordSearchEngine.advancedSearch, List.foldl_cons, List.foldl_nil]
    have happ : (WordSearchEngine.loadWords ws).applyConstraint
        (WordSearchEngine.loadWords ws).words (Constraint.starts_with "") = [] := by
      rw [WordSearchEngine.applyConstraint, hroot, WordSearchEngine.intersectSets]
      apply List.eq_nil_iff_forall_not_mem.mpr
      intro w hw
      obtain ⟨-, hw2⟩ := List.mem_filter.mp hw
      rw [decide_eq_true_eq] at hw2
      exact absurd hw2 (List.not_mem_nil w)
    rw [happ]
    rfl
  · intro hnil
    rw [WordSearchEngine.advancedSearch, List.foldl_nil] at hnil
    have hperm := sortWords_perm (WordSearchEngine.loadWords ws).words
    rw [hnil] at hperm
    have hwnil : (WordSearchEngine.loadWords ws).words = [] :=
      hperm.symm.eq_nil
    obtain ⟨w, hw⟩ : ∃ w, w ∈ ws := by
      cases ws with
      | nil => exact absurd rfl h
      | cons a l => exact ⟨a, List.mem_cons_self a l⟩
    have hmem : w ∈ (WordSearchEngine.loadWords ws).words :=
      (mem_loadWords_words ws w).mpr hw
    rw [hwnil] at hmem
    exact absurd hmem (List.not_mem_nil w)

/-- C10, witness at a concrete input. -/
theorem claim10_witness :
    Trie.search (WordSearchEngine.loadWords ["a"]).trie "" = [] ∧
      (WordSearchEngine.loadWords ["a"]).advancedSearch [Constraint.starts_with ""] = [] ∧
      (WordSearchEngine.loadWords ["a"]).advancedSearch [] ≠ [] :=
  claim10_root_unreachable ["a"] (by decide)

end WordleSearch
